import Mathlib

/-!
# Verification of the grokker embedding-indexed chunk store

Shallow embedding of the `grokker` Go package: the document/chunk store, the
chunker, the batched embedding client, the similarity ranker, the context
assembler, and JSON persistence.  Text is modelled as `List Char` (Go counts
bytes; the two agree on ASCII, which is all the claims exercise), float64
values as `ℚ`, and the remote embedding service as an explicit oracle
`embedF : List Char → List ℚ` passed to the operations that call it.
-/

namespace Grok

/-- `Document` from the source: a single document in the repository,
identified by its file path. -/
structure Document where
  Path : String
deriving DecidableEq, Repr

/-- `Chunk` from the source: a chunk of text from a document, with the
owning document's path (the source stores a `*Document`; only its `Path`
is ever read), the chunk text, and its embedding vector. -/
structure Chunk where
  docPath : String
  text : List Char
  embedding : List ℚ
deriving DecidableEq, Repr

/-- `Grokker` from the source: the exported (persisted) fields.  The two
unexported API client handles are modelled as explicit function parameters
of the operations that use them. -/
structure Grokker where
  Root : String
  Documents : List Document
  Chunks : List Chunk
  MaxChunkSize : Nat
  CharsPerToken : ℚ
deriving DecidableEq, Repr

/-- `New` from the source: fresh database with `MaxChunkSize = 4096 * 4.0`
and `CharsPerToken = 3.5`. -/
def New : Grokker :=
  { Root := "", Documents := [], Chunks := [], MaxChunkSize := 4096 * 4
    CharsPerToken := 7 / 2 }

/-- `strings.Split(txt, "\n\n")` as used by `chunkStrings`: split on
leftmost, non-overlapping occurrences of two consecutive newlines. -/
def splitNN : List Char → List (List Char)
  | [] => [[]]
  | '\n' :: '\n' :: rest => [] :: splitNN rest
  | c :: rest =>
    match splitNN rest with
    | [] => [[c]]
    | h :: t => (c :: h) :: t

/-- The inner loop of `chunkStrings`: while a paragraph is longer than
`MaxChunkSize`, emit a `MaxChunkSize`-sized slice; an empty paragraph emits
nothing.  (The source loop does not terminate when `MaxChunkSize = 0`; the
model collapses that unreachable case into the final branch.) -/
def chunkParagraph (maxSize : Nat) (p : List Char) : List (List Char) :=
  if p.isEmpty then []
  else if _h : 0 < maxSize ∧ maxSize < p.length then
    p.take maxSize :: chunkParagraph maxSize (p.drop maxSize)
  else [p]
termination_by p.length
decreasing_by
  simp only [List.length_drop]
  omega

/-- `chunkStrings` from the source: split the document text on paragraph
boundaries, then cut oversized paragraphs into `MaxChunkSize`-sized pieces.
The source reads the text from `doc.Path`; the model receives it. -/
def chunkStrings (maxSize : Nat) (text : List Char) : List (List Char) :=
  (splitNN text).flatMap (chunkParagraph maxSize)

/-- The batching loop of `CreateEmbeddings`: `for i := 0; i < len(texts);
i += 100 { ... texts[i:end] ... }` — successive slices of at most 100
inputs, in order. -/
def embedBatches (texts : List (List Char)) : List (List (List Char)) :=
  if texts.isEmpty then []
  else texts.take 100 :: embedBatches (texts.drop 100)
termination_by texts.length
decreasing_by
  simp only [List.length_drop]
  rename_i h
  simp only [List.isEmpty_eq_true] at h
  have : texts.length ≠ 0 := fun hn => h (List.length_eq_zero.mp hn)
  omega

/-- `CreateEmbeddings` from the source: send the texts in batches of at
most 100 to the embedding endpoint (modelled by `embedF`, which returns one
vector per input of a batch, in order) and concatenate the responses. -/
def CreateEmbeddings (embedF : List Char → List ℚ) (texts : List (List Char)) :
    List (List ℚ) :=
  ((embedBatches texts).map (fun b => b.map embedF)).flatten

/-- The diff loop of `UpdateDocument`: walk the candidate chunk strings in
order; a candidate whose text matches some chunk of the old working set
consumes (removes) the first such chunk and is dropped; a candidate with no
match is queued for embedding. -/
def updateDiff (cands : List (List Char)) (old : List Chunk) : List (List Char) :=
  match cands with
  | [] => []
  | c :: rest =>
    if old.any (fun oc => oc.text == c) then
      updateDiff rest (old.eraseP (fun oc => oc.text == c))
    else c :: updateDiff rest old

/-- `UpdateDocument` from the source: re-chunk the document text, diff the
candidates against the document's existing chunks by exact text match,
embed only the unmatched candidates and append them as new chunks.  The
source reads the text from `doc.Path` and issues embedding-API calls as a
side effect; the model receives the text and returns, besides the updated
store and the `updated` flag, the batch requests sent to the embedding
endpoint. -/
def UpdateDocument (embedF : List Char → List ℚ) (g : Grokker) (path : String)
    (text : List Char) : Grokker × Bool × List (List (List Char)) :=
  let cands := chunkStrings g.MaxChunkSize text
  let oldChunks := g.Chunks.filter (fun c => c.docPath == path)
  let newTexts := updateDiff cands oldChunks
  let newChunks := (newTexts.zip (CreateEmbeddings embedF newTexts)).map
    (fun p => { docPath := path, text := p.1, embedding := p.2 : Chunk })
  ({ g with Chunks := g.Chunks ++ newChunks }, !newTexts.isEmpty,
    embedBatches newTexts)

/-- `RemoveDocument` from the source: splice out the first document entry
with the given path; chunks are left for GC. -/
def RemoveDocument (g : Grokker) (path : String) : Grokker :=
  { g with Documents := g.Documents.eraseP (fun d => d.Path == path) }

/-- `GC` from the source: keep exactly the chunks whose owning-document
path occurs among the current documents. -/
def GC (g : Grokker) : Grokker :=
  { g with Chunks :=
      g.Chunks.filter (fun c => g.Documents.any (fun d => d.Path == c.docPath)) }

/-- `AddDocument` from the source: register the document if its path is not
already present, then update it.  Reading a missing file is a fatal error
(`none`).  The filesystem is modelled as `fs : path → Option (text, mtime)`. -/
def AddDocument (embedF : List Char → List ℚ)
    (fs : String → Option (List Char × Nat)) (g : Grokker) (path : String) :
    Option Grokker :=
  let g1 := if g.Documents.any (fun d => d.Path == path) then g
    else { g with Documents := g.Documents ++ [{ Path := path }] }
  match fs path with
  | none => none
  | some (text, _) => some (UpdateDocument embedF g1 path text).1

/-- One caller-visible mutation of the store. -/
inductive StoreOp where
  | add (path : String)
  | update (path : String)
  | remove (path : String)
  | gc
deriving Repr

/-- Apply one store operation; `none` models a fatal error (missing file on
add/update). -/
def applyOp (embedF : List Char → List ℚ)
    (fs : String → Option (List Char × Nat)) (g : Grokker) :
    StoreOp → Option Grokker
  | .add path => AddDocument embedF fs g path
  | .update path =>
    match fs path with
    | none => none
    | some (text, _) => some (UpdateDocument embedF g path text).1
  | .remove path => some (RemoveDocument g path)
  | .gc => some (GC g)

/-- Run a sequence of store operations, aborting on the first error. -/
def runOps (embedF : List Char → List ℚ)
    (fs : String → Option (List Char × Nat)) :
    List StoreOp → Grokker → Option Grokker
  | [], g => some g
  | op :: ops, g =>
    match applyOp embedF fs g op with
    | none => none
    | some g1 => runOps embedF fs ops g1

/-- The deduplication invariant: no two chunks of one document share the
same text. -/
def chunksOk (g : Grokker) : Prop :=
  g.Chunks.Pairwise (fun a b => a.docPath = b.docPath → a.text ≠ b.text)

instance : DecidablePred chunksOk := fun g => by
  unfold chunksOk
  infer_instance

/-- The splice `g.Documents = append(g.Documents[:j], g.Documents[j+1:]...)`
performed by `RemoveDocument`, seen at the level of the backing array that
a live `range` loop has captured: elements `j+1 .. len-1` shift left one
position in place, the element at `len-1` keeps its old value, and the
logical length drops by one.  No match leaves everything unchanged. -/
def removeBacking (backing : List Document) (len : Nat) (path : String) :
    List Document × Nat :=
  match (backing.take len).findIdx? (fun d => d.Path == path) with
  | none => (backing, len)
  | some j =>
    (backing.take j ++ (backing.take len).drop (j + 1) ++ backing.drop (len - 1),
      len - 1)

/-- The document loop of `UpdateEmbeddings`.  Go's `range g.Documents`
captures the slice header (pointer and length) once, while
`g.RemoveDocument` mutates the same backing array in place, so the loop
keeps indexing the captured view: the state carries the backing array, the
current logical length (`g.Documents = backing.take len`), the store, and
the `update` flag; the index list is fixed at loop entry.  A missing file
removes the document; a file modified after `lastUpdate` is re-updated. -/
def updLoop (embedF : List Char → List ℚ)
    (fs : String → Option (List Char × Nat)) (lastUpdate : Nat) :
    List Nat → List Document × Nat × Grokker × Bool →
      List Document × Nat × Grokker × Bool
  | [], s => s
  | i :: rest, (backing, len, g, upd) =>
    let doc := backing.getD i { Path := "" }
    match fs doc.Path with
    | none =>
      let r := removeBacking backing len doc.Path
      updLoop embedF fs lastUpdate rest
        (r.1, r.2, { g with Documents := r.1.take r.2 }, true)
    | some (text, mtime) =>
      if lastUpdate < mtime then
        let u := UpdateDocument embedF g doc.Path text
        updLoop embedF fs lastUpdate rest (backing, len, u.1, upd || u.2.1)
      else
        updLoop embedF fs lastUpdate rest (backing, len, g, upd)

/-- `UpdateEmbeddings` from the source: walk the documents, removing the
missing ones and re-updating the modified ones, then garbage-collect.
`lastUpdate` is the persisted store file's timestamp. -/
def UpdateEmbeddings (embedF : List Char → List ℚ)
    (fs : String → Option (List Char × Nat)) (lastUpdate : Nat)
    (g : Grokker) : Grokker × Bool :=
  let s := updLoop embedF fs lastUpdate (List.range g.Documents.length)
    (g.Documents, g.Documents.length, g, false)
  (GC s.2.2.1, s.2.2.2)

/-- The comparator passed to `sort.Slice` in `SimilarChunks`:
`sims[i].score > sims[j].score`, i.e. pairs ordered by descending score.
Stated as the reflexive closure (`b.2 ≤ a.2`) so that it is total. -/
def simLE (a b : Chunk × ℚ) : Prop := b.2 ≤ a.2

instance : DecidableRel simLE := fun a b => inferInstanceAs (Decidable (b.2 ≤ a.2))

instance : IsTotal (Chunk × ℚ) simLE := ⟨fun a b => le_total b.2 a.2⟩

instance : IsTrans (Chunk × ℚ) simLE := ⟨fun _ _ _ h1 h2 => le_trans h2 h1⟩

/-- The contract Go documents for the `sort.Slice` call in `SimilarChunks`
with the descending-score comparator: the result is a permutation of the
input, sorted non-increasingly by score.  `sort.Slice` is explicitly *not*
guaranteed stable (it runs pdqsort, which reorders equal elements on larger
slices), so the model quantifies over the implementation: anything
satisfying this contract is a faithful reading of the call. -/
def SortsByScore (sortImpl : List (Chunk × ℚ) → List (Chunk × ℚ)) : Prop :=
  ∀ l : List (Chunk × ℚ), (sortImpl l).Perm l ∧ List.Sorted simLE (sortImpl l)

/-- `SimilarChunks` from the source, parametric in the sort implementation:
score every chunk against the query embedding, sort the `(chunk, score)`
pairs with the given implementation of the `sort.Slice` call, and return
the first `K` chunks (`K = 0` is the documented sentinel for "all chunks").
The cosine `Similarity` computation over `float64` has no exact rational
counterpart, so the score each chunk receives from the query embedding is
abstracted into `score : Chunk → ℚ`, which every claim quantifies over. -/
def SimilarChunksWith (sortImpl : List (Chunk × ℚ) → List (Chunk × ℚ))
    (g : Grokker) (score : Chunk → ℚ) (K : Nat) : List Chunk :=
  let sims := g.Chunks.map (fun c => (c, score c))
  let sorted := sortImpl sims
  let k := if K = 0 then sims.length else K
  (sorted.take k).map Prod.fst

/-- One executable implementation of the `sort.Slice` contract: a stable
insertion sort by descending score.  Go's actual `sort.Slice` only meets
`SortsByScore` and does not promise this implementation's tie order. -/
def insertionSortByScore (l : List (Chunk × ℚ)) : List (Chunk × ℚ) :=
  l.insertionSort simLE

/-- An executable instantiation of `SimilarChunksWith`, used by the claims
whose statements are independent of tie order among equal scores. -/
def SimilarChunks (g : Grokker) (score : Chunk → ℚ) (K : Nat) : List Chunk :=
  SimilarChunksWith insertionSortByScore g score K

/-- A different conforming implementation of the `sort.Slice` contract: it
sorts the reversed input stably, so chunks with equal scores come out in
reversed store order. -/
def antiStableSort (l : List (Chunk × ℚ)) : List (Chunk × ℚ) :=
  l.reverse.insertionSort simLE

/-- The fixed prompt template `promptTmpl` from the source. -/
def promptTmpl : List Char := "{{.Question}}\n\nContext:\n{{.Context}}".toList

/-- The context loop of `Answer`: append each ranked chunk's text plus a
`"\n\n"` separator, then stop as soon as the running length plus the
template's length exceeds the budget — the chunk is appended before the
check. -/
def assembleContext (maxSize : Nat) : List (List Char) → List Char → List Char
  | [], ctx => ctx
  | t :: rest, ctx =>
    let ctx1 := ctx ++ t ++ "\n\n".toList
    if maxSize < ctx1.length + promptTmpl.length then ctx1
    else assembleContext maxSize rest ctx1

/-- `maxSize := int(float64(g.MaxChunkSize) * 0.5)` from `Answer`: half the
configured maximum chunk size, truncated. -/
def answerMaxSize (g : Grokker) : Nat := g.MaxChunkSize / 2

/-- The context string `Answer` builds before calling `Generate`: all
chunks ranked by similarity (`K = 0`), walked by `assembleContext` under
the half-size budget. -/
def answerContext (g : Grokker) (score : Chunk → ℚ) : List Char :=
  assembleContext (answerMaxSize g) ((SimilarChunks g score 0).map (fun c => c.text)) []

/-- JSON values, the codomain of `json.Marshal` as used by `Save`. -/
inductive JVal where
  | null
  | num (q : ℚ)
  | str (s : String)
  | arr (xs : List JVal)
  | obj (fields : List (String × JVal))

/-- `json.Marshal` of a `Document`. -/
def encodeDocument (d : Document) : JVal := .obj [("Path", .str d.Path)]

/-- `json.Marshal` of a `Chunk` (the `Document` field marshals as the
nested document object). -/
def encodeChunk (c : Chunk) : JVal :=
  .obj [("Document", .obj [("Path", .str c.docPath)]),
    ("Text", .str (String.mk c.text)),
    ("Embedding", .arr (c.embedding.map JVal.num))]

/-- `Save` from the source: `json.Marshal` of the exported `Grokker`
fields. -/
def Save (g : Grokker) : JVal :=
  .obj [("Root", .str g.Root),
    ("Documents", .arr (g.Documents.map encodeDocument)),
    ("Chunks", .arr (g.Chunks.map encodeChunk)),
    ("MaxChunkSize", .num (g.MaxChunkSize : ℚ)),
    ("CharsPerToken", .num g.CharsPerToken)]

/-- Key lookup in a JSON object. -/
def jLookup (fields : List (String × JVal)) (k : String) : Option JVal :=
  (fields.find? (fun f => f.1 == k)).map (fun f => f.2)

/-- `json.Unmarshal` field handling: an absent key leaves the field at its
prior value; a present key must decode. -/
def decodeField {α : Type} (fields : List (String × JVal)) (k : String)
    (dflt : α) (dec : JVal → Option α) : Option α :=
  match jLookup fields k with
  | none => some dflt
  | some v => dec v

def decodeStr : JVal → Option String
  | .str s => some s
  | _ => none

def decodeQ : JVal → Option ℚ
  | .num q => some q
  | _ => none

def decodeNat : JVal → Option Nat
  | .num q => if q.den = 1 ∧ 0 ≤ q.num then some q.num.toNat else none
  | _ => none

def decodeQList : JVal → Option (List ℚ)
  | .arr xs => xs.mapM decodeQ
  | .null => some []
  | _ => none

def decodeDocument : JVal → Option Document
  | .obj fields =>
    (decodeField fields "Path" "" decodeStr).map (fun s => { Path := s })
  | _ => none

def decodeDocumentList : JVal → Option (List Document)
  | .arr xs => xs.mapM decodeDocument
  | .null => some []
  | _ => none

def decodeChunk : JVal → Option Chunk
  | .obj fields =>
    match decodeField fields "Document" { Path := "" } decodeDocument with
    | none => none
    | some d =>
      match decodeField fields "Text" "" decodeStr with
      | none => none
      | some t =>
        match decodeField fields "Embedding" [] decodeQList with
        | none => none
        | some e => some { docPath := d.Path, text := t.toList, embedding := e }
  | _ => none

def decodeChunkList : JVal → Option (List Chunk)
  | .arr xs => xs.mapM decodeChunk
  | .null => some []
  | _ => none

/-- `Load` from the source: start from `New()` and `json.Unmarshal` the
blob over it, field by field. -/
def Load (j : JVal) : Option Grokker :=
  match j with
  | .obj fields =>
    match decodeField fields "Root" New.Root decodeStr with
    | none => none
    | some root =>
      match decodeField fields "Documents" New.Documents decodeDocumentList with
      | none => none
      | some docs =>
        match decodeField fields "Chunks" New.Chunks decodeChunkList with
        | none => none
        | some chunks =>
          match decodeField fields "MaxChunkSize" New.MaxChunkSize decodeNat with
          | none => none
          | some mcs =>
            match decodeField fields "CharsPerToken" New.CharsPerToken decodeQ with
            | none => none
            | some cpt =>
              some { Root := root, Documents := docs, Chunks := chunks,
                     MaxChunkSize := mcs, CharsPerToken := cpt }
  | _ => none

/-- Store fixture used by concrete witnesses: two chunks of one document. -/
def chunkW1 : Chunk := { docPath := "w.txt", text := ['a'], embedding := [1] }

def chunkW2 : Chunk := { docPath := "w.txt", text := ['b'], embedding := [2] }

def gW : Grokker :=
  { Root := "", Documents := [{ Path := "w.txt" }], Chunks := [chunkW1, chunkW2]
    MaxChunkSize := 4096 * 4, CharsPerToken := 7 / 2 }

/-- Score fixture: read the first embedding coordinate. -/
def scoreW : Chunk → ℚ := fun c => c.embedding.headD 0

/-- An embedding oracle fixture returning empty vectors. -/
def embedF0 : List Char → List ℚ := fun _ => []

/-- Filesystem fixture with one file `d` whose text consists of two
identical paragraphs. -/
def fsDup : String → Option (List Char × Nat) :=
  fun p => if p = "d" then some ("x\n\nx".toList, 0) else none

/-- The store that adding `d` under `fsDup` produces: two chunks of the
same document with identical text. -/
def gDup : Grokker :=
  { Root := "", Documents := [{ Path := "d" }]
    Chunks := [{ docPath := "d", text := ['x'], embedding := [] },
      { docPath := "d", text := ['x'], embedding := [] }]
    MaxChunkSize := 4096 * 4, CharsPerToken := 7 / 2 }

/-- Filesystem fixture with one file `ok` holding a single paragraph. -/
def fsOk : String → Option (List Char × Nat) :=
  fun p => if p = "ok" then some ("x".toList, 0) else none

/-- The store that adding `ok` under `fsOk` produces. -/
def gOk : Grokker :=
  { Root := "", Documents := [{ Path := "ok" }]
    Chunks := [{ docPath := "ok", text := ['x'], embedding := [] }]
    MaxChunkSize := 4096 * 4, CharsPerToken := 7 / 2 }

/-- Tie fixtures: two distinct chunks of one document with equal scores. -/
def chunkT1 : Chunk := { docPath := "t", text := ['1'], embedding := [5] }

def chunkT2 : Chunk := { docPath := "t", text := ['2'], embedding := [5] }

/-- A store holding the two equal-scored chunks, `chunkT1` first. -/
def gTie : Grokker :=
  { Root := "", Documents := [{ Path := "t" }], Chunks := [chunkT1, chunkT2]
    MaxChunkSize := 4096 * 4, CharsPerToken := 7 / 2 }

/-- Ranked-context fixtures: three 4000-character chunks with descending
scores. -/
def chunkA : Chunk :=
  { docPath := "p", text := List.replicate 4000 'a', embedding := [3] }

def chunkB : Chunk :=
  { docPath := "p", text := List.replicate 4000 'b', embedding := [2] }

def chunkC : Chunk :=
  { docPath := "p", text := List.replicate 4000 'c', embedding := [1] }

/-- A store with `MaxChunkSize = 16384` holding the three 4000-character
chunks. -/
def gCtx : Grokker :=
  { Root := "", Documents := [{ Path := "p" }]
    Chunks := [chunkA, chunkB, chunkC]
    MaxChunkSize := 4096 * 4, CharsPerToken := 7 / 2 }

/-- Filesystem fixture where only `c` exists (unmodified, mtime 0); `a` and
`b` are missing. -/
def fsMiss2 : String → Option (List Char × Nat) :=
  fun p => if p = "c" then some ([], 0) else none

/-- A store tracking documents `a`, `b`, `c`. -/
def gMiss : Grokker :=
  { Root := ""
    Documents := [{ Path := "a" }, { Path := "b" }, { Path := "c" }]
    Chunks := [], MaxChunkSize := 4096 * 4, CharsPerToken := 7 / 2 }

/- ### Theorems -/

theorem embedBatches_nil : embedBatches [] = [] := by
  rw [embedBatches]
  rfl

theorem embedBatches_of_isEmpty (texts : List (List Char))
    (h : texts.isEmpty = true) : embedBatches texts = [] := by
  rw [embedBatches]
  simp [h]

theorem embedBatches_of_ne_nil (texts : List (List Char)) (h : texts ≠ []) :
    embedBatches texts = texts.take 100 :: embedBatches (texts.drop 100) := by
  rw [embedBatches]
  simp [h]

/-- Each batch holds at most 100 inputs. -/
theorem embedBatches_le_100 (texts : List (List Char)) :
    ∀ b ∈ embedBatches texts, b.length ≤ 100 := by
  induction texts using embedBatches.induct with
  | case1 texts h =>
    rw [embedBatches_of_isEmpty texts h]
    simp
  | case2 texts h ih =>
    rw [embedBatches_of_ne_nil texts (by simpa [List.isEmpty_iff] using h)]
    intro b hb
    simp only [List.mem_cons] at hb
    rcases hb with hb | hb
    · subst hb
      simp only [List.length_take]
      omega
    · exact ih b hb

/-- Concatenating the batches recovers the input list. -/
theorem embedBatches_flatten (texts : List (List Char)) :
    (embedBatches texts).flatten = texts := by
  induction texts using embedBatches.induct with
  | case1 texts h =>
    rw [embedBatches_of_isEmpty texts h]
    simp [List.isEmpty_iff.mp h]
  | case2 texts h ih =>
    rw [embedBatches_of_ne_nil texts (by simpa [List.isEmpty_iff] using h)]
    simp [ih]

/-- The embedding client is order-preserving: one vector per input. -/
theorem CreateEmbeddings_eq_map (embedF : List Char → List ℚ)
    (texts : List (List Char)) :
    CreateEmbeddings embedF texts = texts.map embedF := by
  unfold CreateEmbeddings
  rw [← List.map_flatten, embedBatches_flatten]

/-- The stable insertion sort meets the `sort.Slice` contract. -/
theorem insertionSortByScore_sorts : SortsByScore insertionSortByScore :=
  fun l => ⟨List.perm_insertionSort simLE l, List.sorted_insertionSort simLE l⟩

/-- The tie-reversing sort also meets the `sort.Slice` contract. -/
theorem antiStableSort_sorts : SortsByScore antiStableSort :=
  fun l => ⟨(List.perm_insertionSort simLE l.reverse).trans (List.reverse_perm l),
    List.sorted_insertionSort simLE l.reverse⟩

theorem SimilarChunksWith_eq_take (sortImpl : List (Chunk × ℚ) → List (Chunk × ℚ))
    (g : Grokker) (score : Chunk → ℚ) (K : Nat) :
    SimilarChunksWith sortImpl g score K =
      ((sortImpl (g.Chunks.map (fun c => (c, score c)))).take
        (if K = 0 then g.Chunks.length else K)).map Prod.fst := by
  unfold SimilarChunksWith
  simp only [List.length_map]

theorem SimilarChunksWith_zero (sortImpl : List (Chunk × ℚ) → List (Chunk × ℚ))
    (hsort : SortsByScore sortImpl) (g : Grokker) (score : Chunk → ℚ) :
    SimilarChunksWith sortImpl g score 0 =
      (sortImpl (g.Chunks.map (fun c => (c, score c)))).map Prod.fst := by
  rw [SimilarChunksWith_eq_take, if_pos rfl]
  rw [show g.Chunks.length =
        (sortImpl (g.Chunks.map (fun c => (c, score c)))).length by
      rw [(hsort _).1.length_eq, List.length_map], List.take_length]

theorem SimilarChunks_eq_take (g : Grokker) (score : Chunk → ℚ) (K : Nat) :
    SimilarChunks g score K =
      (((g.Chunks.map (fun c => (c, score c))).insertionSort simLE).take
        (if K = 0 then g.Chunks.length else K)).map Prod.fst := by
  unfold SimilarChunks
  rw [SimilarChunksWith_eq_take]
  rfl

theorem SimilarChunks_zero (g : Grokker) (score : Chunk → ℚ) :
    SimilarChunks g score 0 =
      ((g.Chunks.map (fun c => (c, score c))).insertionSort simLE).map Prod.fst := by
  unfold SimilarChunks
  rw [SimilarChunksWith_zero insertionSortByScore insertionSortByScore_sorts]
  rfl

/-- In a conforming sort's output, each pair's recorded score is the score
of its chunk. -/
theorem mem_sortImpl_snd {sortImpl : List (Chunk × ℚ) → List (Chunk × ℚ)}
    (hsort : SortsByScore sortImpl) {g : Grokker} {score : Chunk → ℚ}
    {x : Chunk × ℚ}
    (hx : x ∈ sortImpl (g.Chunks.map (fun c => (c, score c)))) :
    x.2 = score x.1 := by
  rw [(hsort _).1.mem_iff] at hx
  rcases List.mem_map.mp hx with ⟨c, _, rfl⟩
  rfl

/-- C2 counterexample: `sort.Slice` promises only a sorted permutation,
not stability, so the program's tie order is whatever the Go runtime's
(unstable) sort produces.  `antiStableSort` meets that contract on every
input, yet on the store holding two distinct equal-scored chunks it returns
them in reversed store order — the claimed tie-break by original store
order is not a consequence of the program. -/
theorem C2_similarChunks_stability_counterexample :
    SortsByScore antiStableSort ∧
    gTie.Chunks = [chunkT1, chunkT2] ∧
    scoreW chunkT1 = scoreW chunkT2 ∧
    chunkT1 ≠ chunkT2 ∧
    SimilarChunksWith antiStableSort gTie scoreW 0 = [chunkT2, chunkT1] :=
  ⟨antiStableSort_sorts, rfl, rfl, by decide, by decide⟩

/-- C2 amended: the `sort.Slice` call guarantees only a sorted permutation
(no stability), so the ranking properties hold for every implementation of
that contract and the stable-tie-break conjunct is dropped: with any
conforming sort, `K = 0` returns all chunks (a permutation of the store's
chunk list) in non-increasing similarity-score order, and `K = N` for
`0 < N ≤` chunk count returns exactly `N` chunks, namely the prefix of
length `N` of the `K = 0` ordering; the relative order of equal-scored
chunks is an unspecified implementation detail. -/
theorem C2_similarChunks_ranking_contract
    (sortImpl : List (Chunk × ℚ) → List (Chunk × ℚ))
    (hsort : SortsByScore sortImpl) (g : Grokker) (score : Chunk → ℚ)
    (N : Nat) (hN : 0 < N) (hNle : N ≤ g.Chunks.length) :
    (SimilarChunksWith sortImpl g score 0).Perm g.Chunks ∧
    List.Pairwise (fun a b => score b ≤ score a)
      (SimilarChunksWith sortImpl g score 0) ∧
    (SimilarChunksWith sortImpl g score N).length = N ∧
    SimilarChunksWith sortImpl g score N
      = (SimilarChunksWith sortImpl g score 0).take N := by
  have hmapfst : (g.Chunks.map (fun c => (c, score c))).map Prod.fst = g.Chunks := by
    rw [List.map_map]
    exact List.map_id g.Chunks
  have hperm := (hsort (g.Chunks.map (fun c => (c, score c)))).1
  have hsorted := (hsort (g.Chunks.map (fun c => (c, score c)))).2
  refine ⟨?_, ?_, ?_, ?_⟩
  · rw [SimilarChunksWith_zero sortImpl hsort]
    have h1 := hperm.map Prod.fst
    rwa [hmapfst] at h1
  · rw [SimilarChunksWith_zero sortImpl hsort, List.pairwise_map]
    exact hsorted.imp_of_mem (fun ha hb hr => by
      have h2 := mem_sortImpl_snd hsort ha
      have h3 := mem_sortImpl_snd hsort hb
      simpa [simLE, h2, h3] using hr)
  · rw [SimilarChunksWith_eq_take, if_neg (Nat.pos_iff_ne_zero.mp hN)]
    rw [List.length_map, List.length_take, hperm.length_eq, List.length_map]
    omega
  · rw [SimilarChunksWith_eq_take, if_neg (Nat.pos_iff_ne_zero.mp hN),
      SimilarChunksWith_zero sortImpl hsort, List.map_take]

theorem C2_similarChunks_ranking_contract_witness :
    SortsByScore insertionSortByScore ∧ 0 < 1 ∧ 1 ≤ gW.Chunks.length ∧
      SimilarChunksWith insertionSortByScore gW scoreW 1
        = (SimilarChunksWith insertionSortByScore gW scoreW 0).take 1 :=
  ⟨insertionSortByScore_sorts, Nat.one_pos, by decide,
    (C2_similarChunks_ranking_contract insertionSortByScore
      insertionSortByScore_sorts gW scoreW 1 Nat.one_pos (by decide)).2.2.2⟩

/-- C10: calling `SimilarChunks` with `K` strictly greater than the number
of chunks returns all chunks in ranked order — the same result as `K = 0`
and as `K =` chunk count — and on an empty chunk set the result is empty
for every `K`. -/
theorem C10_similarChunks_K_overflow (g : Grokker) (score : Chunk → ℚ)
    (K : Nat) (h : g.Chunks.length < K) :
    SimilarChunks g score K = SimilarChunks g score 0 ∧
    SimilarChunks g score K = SimilarChunks g score g.Chunks.length ∧
    (g.Chunks = [] → ∀ K2 : Nat, SimilarChunks g score K2 = []) := by
  have hsl : ((g.Chunks.map (fun c => (c, score c))).insertionSort simLE).length
      = g.Chunks.length := by
    rw [List.length_insertionSort, List.length_map]
  have hK : SimilarChunks g score K =
      ((g.Chunks.map (fun c => (c, score c))).insertionSort simLE).map Prod.fst := by
    rw [SimilarChunks_eq_take, if_neg (by omega : K ≠ 0),
      List.take_of_length_le (by omega)]
  refine ⟨?_, ?_, ?_⟩
  · rw [hK, SimilarChunks_zero]
  · by_cases h0 : g.Chunks.length = 0
    · rw [hK, h0, SimilarChunks_zero]
    · rw [hK, SimilarChunks_eq_take, if_neg h0,
        List.take_of_length_le (by omega)]
  · intro hnil K2
    rw [SimilarChunks_eq_take, hnil]
    simp

theorem C10_similarChunks_K_overflow_witness :
    gW.Chunks.length < 5 ∧ SimilarChunks gW scoreW 5 = SimilarChunks gW scoreW 0 :=
  ⟨by decide, (C10_similarChunks_K_overflow gW scoreW 5 (by decide)).1⟩

/-- C7: for every input list, `CreateEmbeddings` splits it into successive
batches of at most 100 texts whose concatenation is the input and returns
one embedding per input in input order; in particular a 250-element input
is sent as exactly 3 batches of sizes 100, 100 and 50. -/
theorem C7_createEmbeddings_batching (embedF : List Char → List ℚ)
    (texts : List (List Char)) :
    (∀ b ∈ embedBatches texts, b.length ≤ 100) ∧
    (embedBatches texts).flatten = texts ∧
    CreateEmbeddings embedF texts = texts.map embedF ∧
    (texts.length = 250 →
      (embedBatches texts).map List.length = [100, 100, 50]) := by
  refine ⟨embedBatches_le_100 texts, embedBatches_flatten texts,
    CreateEmbeddings_eq_map embedF texts, ?_⟩
  intro h
  have h1 : texts ≠ [] := by
    intro hn
    rw [hn] at h
    simp at h
  have hd1 : (texts.drop 100).length = 150 := by
    rw [List.length_drop, h]
  have h2 : texts.drop 100 ≠ [] := by
    intro hn
    rw [hn] at hd1
    simp at hd1
  have hd2 : ((texts.drop 100).drop 100).length = 50 := by
    rw [List.length_drop, hd1]
  have h3 : (texts.drop 100).drop 100 ≠ [] := by
    intro hn
    rw [hn] at hd2
    simp at hd2
  have hd3 : (((texts.drop 100).drop 100).drop 100) = [] := by
    apply List.eq_nil_of_length_eq_zero
    rw [List.length_drop, hd2]
  rw [embedBatches_of_ne_nil texts h1, embedBatches_of_ne_nil _ h2,
    embedBatches_of_ne_nil _ h3, hd3, embedBatches_nil]
  simp only [List.map_cons, List.map_nil, List.length_take, hd1, hd2, h]
  norm_num

theorem zip_self_map {α β : Type} (f : α → β) (l : List α) :
    l.zip (l.map f) = l.map (fun x => (x, f x)) := by
  induction l with
  | nil => rfl
  | cons x xs ih => simp [ih]

/-- The chunk list after `UpdateDocument`: the old chunks followed by one
new chunk per unmatched candidate, in candidate order. -/
theorem UpdateDocument_fst_chunks (embedF : List Char → List ℚ) (g : Grokker)
    (path : String) (text : List Char) :
    (UpdateDocument embedF g path text).1.Chunks = g.Chunks ++
      (updateDiff (chunkStrings g.MaxChunkSize text)
        (g.Chunks.filter (fun c => c.docPath == path))).map
        (fun t => { docPath := path, text := t, embedding := embedF t }) := by
  unfold UpdateDocument
  simp only [CreateEmbeddings_eq_map, zip_self_map, List.map_map]
  rfl

/-- Erasing the first chunk whose text is `c` lowers the count of text `t`
by one exactly when `c = t`. -/
theorem countP_eraseP_text (old : List Chunk) (c t : List Char)
    (h : old.any (fun oc => oc.text == c) = true) :
    List.countP (fun oc => oc.text == t) old =
      List.countP (fun oc => oc.text == t)
        (old.eraseP (fun oc => oc.text == c)) + (if c == t then 1 else 0) := by
  induction old with
  | nil => simp at h
  | cons o os ih =>
    by_cases hoc : (o.text == c) = true
    · rw [List.eraseP_cons_of_pos (p := fun oc : Chunk => oc.text == c) hoc,
        List.countP_cons]
      have htext : o.text = c := by simpa using hoc
      rw [htext]
    · rw [List.eraseP_cons_of_neg (p := fun oc : Chunk => oc.text == c)
        (by simpa using hoc)]
      have h2 : os.any (fun oc => oc.text == c) = true := by
        rw [List.any_cons] at h
        simpa [hoc] using h
      rw [List.countP_cons, List.countP_cons, ih h2]
      omega

/-- Every candidate occurrence is matched by an old chunk or queued:
candidate multiplicity is dominated by old-chunk multiplicity plus queued
multiplicity. -/
theorem count_le_countP_add_diff (cands : List (List Char)) (old : List Chunk)
    (t : List Char) :
    List.count t cands ≤ List.countP (fun oc => oc.text == t) old +
      List.count t (updateDiff cands old) := by
  induction cands generalizing old with
  | nil => simp [updateDiff]
  | cons c rest ih =>
    rw [updateDiff]
    by_cases hf : old.any (fun oc => oc.text == c) = true
    · rw [if_pos hf]
      have he := countP_eraseP_text old c t hf
      have h1 := ih (old.eraseP (fun oc => oc.text == c))
      rw [List.count_cons]
      omega
    · rw [if_neg hf]
      rw [List.count_cons, List.count_cons]
      have h1 := ih old
      omega

/-- If the old chunk multiset dominates the candidate multiset (by text),
the diff finds every candidate and queues nothing. -/
theorem updateDiff_eq_nil_of_counts (cands : List (List Char)) (old : List Chunk)
    (h : ∀ t, List.count t cands ≤ List.countP (fun oc => oc.text == t) old) :
    updateDiff cands old = [] := by
  induction cands generalizing old with
  | nil => rfl
  | cons c rest ih =>
    have hc := h c
    rw [List.count_cons_self] at hc
    have hpos : 0 < List.countP (fun oc => oc.text == c) old := by omega
    have hany : old.any (fun oc => oc.text == c) = true := by
      rw [List.any_eq_true]
      rcases List.countP_pos_iff.mp hpos with ⟨a, ha, hpa⟩
      exact ⟨a, ha, hpa⟩
    rw [updateDiff, if_pos hany]
    apply ih
    intro t
    have he := countP_eraseP_text old c t hany
    have ht := h t
    rw [List.count_cons] at ht
    omega

/-- C4: running `UpdateDocument` a second time on unchanged document text
is a no-op: the store (in particular its chunk list) is returned unchanged,
the `updated` flag is `false`, and no batch request is sent to the
embedding client. -/
theorem C4_updateDocument_noop (embedF : List Char → List ℚ) (g : Grokker)
    (path : String) (text : List Char) :
    UpdateDocument embedF (UpdateDocument embedF g path text).1 path text =
      ((UpdateDocument embedF g path text).1, false, []) := by
  set g1 := (UpdateDocument embedF g path text).1 with hg1
  have hmax : g1.MaxChunkSize = g.MaxChunkSize := rfl
  have hchunks := UpdateDocument_fst_chunks embedF g path text
  rw [← hg1] at hchunks
  set cands := chunkStrings g.MaxChunkSize text with hcands
  set old0 := g.Chunks.filter (fun c => c.docPath == path) with hold0
  set newChunks := (updateDiff cands old0).map
    (fun t => { docPath := path, text := t, embedding := embedF t : Chunk })
    with hnewChunks
  have hfilter : g1.Chunks.filter (fun c => c.docPath == path)
      = old0 ++ newChunks := by
    rw [hchunks, List.filter_append, hold0]
    congr 1
    rw [hnewChunks, List.filter_map]
    rw [List.filter_congr (fun x _ => by simp : ∀ x ∈ updateDiff cands old0,
      ((fun c : Chunk => c.docPath == path) ∘
        (fun t => { docPath := path, text := t, embedding := embedF t : Chunk })) x
        = (fun _ => true) x)]
    rw [List.filter_true]
  have hdom : ∀ t, List.count t cands ≤
      List.countP (fun oc => oc.text == t)
        (g1.Chunks.filter (fun c => c.docPath == path)) := by
    intro t
    rw [hfilter, List.countP_append]
    have hA := count_le_countP_add_diff cands old0 t
    have hmap : List.countP (fun oc => oc.text == t) newChunks
        = List.count t (updateDiff cands old0) := by
      rw [hnewChunks, List.countP_map, List.count]
      rfl
    omega
  have hnil : updateDiff cands (g1.Chunks.filter (fun c => c.docPath == path))
      = [] := updateDiff_eq_nil_of_counts _ _ hdom
  show UpdateDocument embedF g1 path text = (g1, false, [])
  unfold UpdateDocument
  rw [show chunkStrings g1.MaxChunkSize text = cands by rw [hmax, hcands]]
  simp only [hnil, embedBatches_nil]
  simp

/-- The queued texts form a sublist of the candidate list. -/
theorem updateDiff_sublist (cands : List (List Char)) (old : List Chunk) :
    (updateDiff cands old).Sublist cands := by
  induction cands generalizing old with
  | nil => simp [updateDiff]
  | cons c rest ih =>
    rw [updateDiff]
    by_cases hf : old.any (fun oc => oc.text == c) = true
    · rw [if_pos hf]
      exact (ih _).cons c
    · rw [if_neg hf]
      exact (ih _).cons₂ c

/-- Erasing the first chunk with text `c` does not change whether a
different text `c2` occurs. -/
theorem any_eraseP_text_ne (old : List Chunk) (c c2 : List Char) (hne : c2 ≠ c) :
    (old.eraseP (fun oc => oc.text == c)).any (fun oc => oc.text == c2)
      = old.any (fun oc => oc.text == c2) := by
  induction old with
  | nil => rfl
  | cons o os ih =>
    by_cases hoc : (o.text == c) = true
    · rw [List.eraseP_cons_of_pos (p := fun oc : Chunk => oc.text == c) hoc]
      have htext : o.text = c := by simpa using hoc
      have hno : (o.text == c2) = false := by
        simp only [htext]
        exact beq_eq_false_iff_ne.mpr (fun hh => hne hh.symm)
      rw [List.any_cons]
      simp [hno]
    · rw [List.eraseP_cons_of_neg (p := fun oc : Chunk => oc.text == c)
        (by simpa using hoc)]
      rw [List.any_cons, List.any_cons, ih]

/-- With duplicate-free candidates, the diff queues exactly the candidates
whose text occurs in no old chunk. -/
theorem updateDiff_eq_filter (cands : List (List Char)) (old : List Chunk)
    (hnd : cands.Nodup) :
    updateDiff cands old
      = cands.filter (fun c => !(old.any (fun oc => oc.text == c))) := by
  induction cands generalizing old with
  | nil => rfl
  | cons c rest ih =>
    rw [List.nodup_cons] at hnd
    rw [updateDiff, List.filter_cons]
    by_cases hf : old.any (fun oc => oc.text == c) = true
    · rw [if_pos hf, ih _ hnd.2]
      have hcong : ∀ c2 ∈ rest,
          (!((old.eraseP (fun oc => oc.text == c)).any (fun oc => oc.text == c2)))
            = (!(old.any (fun oc => oc.text == c2))) := by
        intro c2 hc2
        have hne : c2 ≠ c := fun hh => hnd.1 (hh ▸ hc2)
        rw [any_eraseP_text_ne old c c2 hne]
      rw [List.filter_congr hcong]
      simp [hf]
    · rw [if_neg hf, ih _ hnd.2]
      have hfb : (old.any (fun oc => oc.text == c)) = false :=
        Bool.not_eq_true _ ▸ hf
      simp [hfb]

/-- The dedup invariant only concerns the chunk list. -/
theorem chunksOk_congr {g1 g2 : Grokker} (h : g1.Chunks = g2.Chunks)
    (hok : chunksOk g1) : chunksOk g2 := by
  unfold chunksOk at hok ⊢
  rw [← h]
  exact hok

/-- `UpdateDocument` preserves the dedup invariant whenever the candidate
list it computes is duplicate-free. -/
theorem chunksOk_updateDocument (embedF : List Char → List ℚ) (g : Grokker)
    (path : String) (text : List Char) (hok : chunksOk g)
    (hnd : (chunkStrings g.MaxChunkSize text).Nodup) :
    chunksOk (UpdateDocument embedF g path text).1 := by
  unfold chunksOk
  rw [UpdateDocument_fst_chunks]
  set old0 := g.Chunks.filter (fun c => c.docPath == path) with hold0
  set newTexts := updateDiff (chunkStrings g.MaxChunkSize text) old0 with hnt
  rw [List.pairwise_append]
  refine ⟨hok, ?_, ?_⟩
  · rw [List.pairwise_map]
    have hndN : newTexts.Nodup := (updateDiff_sublist _ _).nodup hnd
    exact hndN.imp (fun hab => fun _ => hab)
  · intro a ha b hb
    rcases List.mem_map.mp hb with ⟨t, ht, rfl⟩
    intro hpath hteq
    rw [hnt, updateDiff_eq_filter _ _ hnd] at ht
    have hnotany := (List.mem_filter.mp ht).2
    have hmem : a ∈ old0 := by
      rw [hold0]
      exact List.mem_filter.mpr ⟨ha, by simp [hpath]⟩
    have : old0.any (fun oc => oc.text == t) = true :=
      List.any_eq_true.mpr ⟨a, hmem, by simp [hteq]⟩
    rw [this] at hnotany
    simp at hnotany

/-- `RemoveDocument` leaves the chunk list unchanged. -/
theorem chunksOk_removeDocument (g : Grokker) (path : String)
    (hok : chunksOk g) : chunksOk (RemoveDocument g path) := hok

/-- `GC` keeps a sublist of the chunks. -/
theorem chunksOk_gc (g : Grokker) (hok : chunksOk g) : chunksOk (GC g) :=
  List.Pairwise.sublist (List.filter_sublist _) hok

/-- One store operation preserves the dedup invariant (and the chunk-size
configuration) whenever every file's chunking is duplicate-free. -/
theorem chunksOk_applyOp (embedF : List Char → List ℚ)
    (fs : String → Option (List Char × Nat)) (M : Nat) (g g' : Grokker)
    (op : StoreOp) (hok : chunksOk g) (hM : g.MaxChunkSize = M)
    (hfs : ∀ p t m, fs p = some (t, m) → (chunkStrings M t).Nodup)
    (happ : applyOp embedF fs g op = some g') :
    chunksOk g' ∧ g'.MaxChunkSize = M := by
  cases op with
  | add path =>
    simp only [applyOp, AddDocument] at happ
    cases hfsp : fs path with
    | none =>
      rw [hfsp] at happ
      simp at happ
    | some tm =>
      obtain ⟨text, m⟩ := tm
      rw [hfsp] at happ
      simp only [Option.some.injEq] at happ
      subst happ
      set g1 := if g.Documents.any (fun d => d.Path == path) then g
        else { g with Documents := g.Documents ++ [{ Path := path }] } with hg1
      have hch : g1.Chunks = g.Chunks := by
        rw [hg1]
        split <;> rfl
      have hmx : g1.MaxChunkSize = M := by
        rw [hg1]
        split <;> exact hM
      refine ⟨chunksOk_updateDocument embedF g1 path text
        (chunksOk_congr hch.symm hok) (hmx ▸ hfs path text m hfsp), hmx⟩
  | update path =>
    simp only [applyOp] at happ
    cases hfsp : fs path with
    | none =>
      rw [hfsp] at happ
      simp at happ
    | some tm =>
      obtain ⟨text, m⟩ := tm
      rw [hfsp] at happ
      simp only [Option.some.injEq] at happ
      subst happ
      exact ⟨chunksOk_updateDocument embedF g path text hok
        (hM ▸ hfs path text m hfsp), hM⟩
  | remove path =>
    simp only [applyOp, Option.some.injEq] at happ
    subst happ
    exact ⟨chunksOk_removeDocument g path hok, hM⟩
  | gc =>
    simp only [applyOp, Option.some.injEq] at happ
    subst happ
    exact ⟨chunksOk_gc g hok, hM⟩

/-- C3 amended: after any sequence of `AddDocument`, `UpdateDocument`,
`RemoveDocument` and `GC` operations, no two chunks referencing the same
document path have identical text — provided each document's chunking is
duplicate-free (no two identical candidate segments in one file).  Without
that proviso the invariant fails: the diff in `UpdateDocument` only
deduplicates candidates against existing chunks, not against each other,
so two identical paragraphs in one file each produce a chunk (see the
counterexample). -/
theorem C3_dedup_invariant_amended (embedF : List Char → List ℚ)
    (fs : String → Option (List Char × Nat)) (M : Nat) (ops : List StoreOp)
    (g0 g : Grokker) (h0 : chunksOk g0) (hM : g0.MaxChunkSize = M)
    (hfs : ∀ p t m, fs p = some (t, m) → (chunkStrings M t).Nodup)
    (hrun : runOps embedF fs ops g0 = some g) : chunksOk g := by
  induction ops generalizing g0 with
  | nil =>
    simp only [runOps, Option.some.injEq] at hrun
    rwa [← hrun]
  | cons op rest ih =>
    rw [runOps] at hrun
    cases happ : applyOp embedF fs g0 op with
    | none =>
      rw [happ] at hrun
      exact absurd hrun (by simp)
    | some g1 =>
      rw [happ] at hrun
      obtain ⟨hok1, hM1⟩ := chunksOk_applyOp embedF fs M g0 g1 op h0 hM hfs happ
      exact ih g1 hok1 hM1 hrun

theorem chunkParagraph_single_x : chunkParagraph (4096 * 4) ['x'] = [['x']] := by
  rw [chunkParagraph, if_neg (by decide), dif_neg (by decide)]

theorem chunkStrings_dup_x :
    chunkStrings (4096 * 4) ("x\n\nx".toList) = [['x'], ['x']] := by
  unfold chunkStrings
  rw [show splitNN ("x\n\nx".toList) = [['x'], ['x']] by decide]
  rw [List.flatMap_cons, List.flatMap_cons, List.flatMap_nil,
    chunkParagraph_single_x]
  rfl

theorem chunkStrings_single_x :
    chunkStrings (4096 * 4) ("x".toList) = [['x']] := by
  unfold chunkStrings
  rw [show splitNN ("x".toList) = [['x']] by decide]
  rw [List.flatMap_cons, List.flatMap_nil, chunkParagraph_single_x]
  rfl

theorem addDocument_dup_eval : AddDocument embedF0 fsDup New "d" = some gDup := by
  have h1 : AddDocument embedF0 fsDup New "d" =
      some (UpdateDocument embedF0
        { Root := "", Documents := [{ Path := "d" }], Chunks := []
          MaxChunkSize := 4096 * 4, CharsPerToken := 7 / 2 } "d"
        ("x\n\nx".toList)).1 := rfl
  rw [h1]
  unfold UpdateDocument
  simp only [CreateEmbeddings_eq_map]
  rw [show chunkStrings (Grokker.MaxChunkSize
      { Root := "", Documents := [{ Path := "d" }], Chunks := []
        MaxChunkSize := 4096 * 4, CharsPerToken := 7 / 2 }) ("x\n\nx".toList)
      = [['x'], ['x']] from chunkStrings_dup_x]
  rfl

/-- C3 counterexample: adding one document whose text consists of two
identical paragraphs (`"x\n\nx"`) to a fresh store leaves two chunks with
the same document path and identical text — the claimed invariant fails. -/
theorem C3_dedup_invariant_counterexample :
    runOps embedF0 fsDup [StoreOp.add "d"] New = some gDup ∧ ¬ chunksOk gDup := by
  constructor
  · rw [runOps, show applyOp embedF0 fsDup New (StoreOp.add "d")
        = some gDup from addDocument_dup_eval]
    rfl
  · decide

theorem C3_dedup_invariant_amended_witness :
    chunksOk New ∧ New.MaxChunkSize = 4096 * 4 ∧
      runOps embedF0 fsOk [StoreOp.add "ok"] New = some gOk ∧ chunksOk gOk := by
  have hfsOk : ∀ p t m, fsOk p = some (t, m) →
      (chunkStrings (4096 * 4) t).Nodup := by
    intro p t m hp
    unfold fsOk at hp
    by_cases hpd : p = "ok"
    · rw [if_pos hpd] at hp
      obtain ⟨rfl, rfl⟩ : "x".toList = t ∧ 0 = m := by
        injection hp with hp2
        injection hp2 with ha hb
        exact ⟨ha, hb⟩
      rw [chunkStrings_single_x]
      decide
    · rw [if_neg hpd] at hp
      exact absurd hp (by simp)
  have haddOk : AddDocument embedF0 fsOk New "ok" = some gOk := by
    have h1 : AddDocument embedF0 fsOk New "ok" =
        some (UpdateDocument embedF0
          { Root := "", Documents := [{ Path := "ok" }], Chunks := []
            MaxChunkSize := 4096 * 4, CharsPerToken := 7 / 2 } "ok"
          ("x".toList)).1 := rfl
    rw [h1]
    unfold UpdateDocument
    simp only [CreateEmbeddings_eq_map]
    rw [show chunkStrings (Grokker.MaxChunkSize
        { Root := "", Documents := [{ Path := "ok" }], Chunks := []
          MaxChunkSize := 4096 * 4, CharsPerToken := 7 / 2 }) ("x".toList)
        = [['x']] from chunkStrings_single_x]
    rfl
  have hrunOk : runOps embedF0 fsOk [StoreOp.add "ok"] New = some gOk := by
    rw [runOps, show applyOp embedF0 fsOk New (StoreOp.add "ok")
        = some gOk from haddOk]
    rfl
  exact ⟨by decide, rfl, hrunOk,
    C3_dedup_invariant_amended embedF0 fsOk (4096 * 4) [StoreOp.add "ok"]
      New gOk (by decide) rfl hfsOk hrunOk⟩

/-- Erasing the first element satisfying `p` lowers the `p`-count by one. -/
theorem countP_eraseP_self {α : Type} (p : α → Bool) (l : List α)
    (h : l.any p = true) :
    List.countP p (l.eraseP p) + 1 = List.countP p l := by
  induction l with
  | nil => simp at h
  | cons o os ih =>
    by_cases hp : p o = true
    · rw [List.eraseP_cons_of_pos (p := p) hp, List.countP_cons]
      simp [hp]
    · rw [List.eraseP_cons_of_neg (p := p) (by simpa using hp),
        List.countP_cons, List.countP_cons]
      have h2 : os.any p = true := by
        rw [List.any_cons] at h
        simpa [hp] using h
      rw [← ih h2]
      simp [hp]

/-- Erasing over a split whose prefix has no match removes the split
element. -/
theorem eraseP_eq_of_split {α : Type} (p : α → Bool) (pre post : List α)
    (d : α) (hpre : ∀ x ∈ pre, p x = false) (hd : p d = true) :
    (pre ++ d :: post).eraseP p = pre ++ post := by
  induction pre with
  | nil => simpa using List.eraseP_cons_of_pos (p := p) hd
  | cons x xs ih =>
    have hx : p x = false := hpre x (by simp)
    simp only [List.cons_append]
    rw [List.eraseP_cons_of_neg (p := p) (by simp [hx])]
    rw [ih (fun y hy => hpre y (by simp [hy]))]

/-- C6: `GC` removes exactly the chunks whose owning-document path is not
the path of any current document (a chunk survives iff it was present and
some document carries its path), and after `RemoveDocument` on a document
`d` (present, with no duplicate entry of its path) followed by `GC`, no
chunk with `d`'s path remains. -/
theorem C6_gc_exact (g : Grokker) (d : Document) (hmem : d ∈ g.Documents)
    (hcount : List.countP (fun dd => dd.Path == d.Path) g.Documents ≤ 1) :
    (∀ c : Chunk, c ∈ (GC g).Chunks ↔
      c ∈ g.Chunks ∧ ∃ dd ∈ g.Documents, dd.Path = c.docPath) ∧
    ∀ c ∈ (GC (RemoveDocument g d.Path)).Chunks, c.docPath ≠ d.Path := by
  constructor
  · intro c
    unfold GC
    simp [List.mem_filter, List.any_eq_true]
  · intro c hc heq
    unfold GC RemoveDocument at hc
    simp only [List.mem_filter] at hc
    rcases List.any_eq_true.mp hc.2 with ⟨dd, hdd, hpath⟩
    rw [heq] at hpath
    have hany : g.Documents.any (fun dd => dd.Path == d.Path) = true :=
      List.any_eq_true.mpr ⟨d, hmem, by simp⟩
    have h1 : 0 < List.countP (fun dd => dd.Path == d.Path)
        (g.Documents.eraseP (fun dd => dd.Path == d.Path)) :=
      List.countP_pos_iff.mpr ⟨dd, hdd, hpath⟩
    have h2 := countP_eraseP_self (fun dd : Document => dd.Path == d.Path)
      g.Documents hany
    omega

theorem C6_gc_exact_witness :
    ({ Path := "w.txt" } : Document) ∈ gW.Documents ∧
    List.countP (fun dd => dd.Path == "w.txt") gW.Documents ≤ 1 ∧
    ∀ c ∈ (GC (RemoveDocument gW "w.txt")).Chunks, c.docPath ≠ "w.txt" :=
  ⟨by decide, by decide,
    (C6_gc_exact gW { Path := "w.txt" } (by decide) (by decide)).2⟩

/-- C9: `RemoveDocument` removes only the first document entry carrying the
given path: the chunk list, `MaxChunkSize` and `CharsPerToken` are
unchanged; when no document carries the path the document list is
unchanged; and when the list splits as `pre ++ d :: post` with the first
match at `d`, the result is `pre ++ post` — every other document in its
original order. -/
theorem C9_removeDocument_frame (g : Grokker) (path : String) :
    (RemoveDocument g path).Chunks = g.Chunks ∧
    (RemoveDocument g path).MaxChunkSize = g.MaxChunkSize ∧
    (RemoveDocument g path).CharsPerToken = g.CharsPerToken ∧
    ((∀ dd ∈ g.Documents, dd.Path ≠ path) →
      (RemoveDocument g path).Documents = g.Documents) ∧
    (∀ pre d post, g.Documents = pre ++ d :: post →
      (∀ x ∈ pre, x.Path ≠ path) → d.Path = path →
      (RemoveDocument g path).Documents = pre ++ post) := by
  refine ⟨rfl, rfl, rfl, ?_, ?_⟩
  · intro hall
    unfold RemoveDocument
    simp only
    exact List.eraseP_of_forall_not
      (fun a ha => by simpa using hall a ha)
  · intro pre d post hsplit hpre hd
    unfold RemoveDocument
    simp only
    rw [hsplit]
    exact eraseP_eq_of_split _ pre post d
      (fun x hx => beq_eq_false_iff_ne.mpr (hpre x hx)) (by simp [hd])

theorem C9_removeDocument_frame_witness :
    (RemoveDocument gW "w.txt").Chunks = gW.Chunks ∧
    (RemoveDocument gW "w.txt").Documents = [] := by
  have h := C9_removeDocument_frame gW "w.txt"
  refine ⟨h.1, ?_⟩
  have h2 := h.2.2.2.2 [] { Path := "w.txt" } [] rfl (by simp) rfl
  simpa using h2

/-- C5 (code bug): with documents `a`, `b`, `c`, where `a` and `b` are
missing on disk and `c` is present, `UpdateEmbeddings` removes only `a` and
leaves the missing `b` in the store: `range g.Documents` keeps indexing the
slice header captured at loop entry while `RemoveDocument` splices the
same backing array in place, so the document immediately after a removed
one is never visited. -/
theorem C5_updateEmbeddings_consecutive_missing :
    (UpdateEmbeddings embedF0 fsMiss2 0 gMiss).1.Documents
      = [{ Path := "b" }, { Path := "c" }] ∧
    fsMiss2 "b" = none ∧ fsMiss2 "a" = none := by
  refine ⟨by decide, rfl, rfl⟩

theorem assembleContext_cons (maxSize : Nat) (t : List Char)
    (rest : List (List Char)) (ctx : List Char) :
    assembleContext maxSize (t :: rest) ctx =
      if maxSize < (ctx ++ t ++ "\n\n".toList).length + promptTmpl.length
      then ctx ++ t ++ "\n\n".toList
      else assembleContext maxSize rest (ctx ++ t ++ "\n\n".toList) := rfl

/-- Under the 8192 budget, three ranked 4000-character chunks are all
appended: each chunk is appended before the budget check, so the third
chunk — the one that crosses the budget — is still included, and the loop
stops after it. -/
theorem assembleContext_three (t1 t2 t3 : List Char) (rest : List (List Char))
    (h1 : t1.length = 4000) (h2 : t2.length = 4000) (h3 : t3.length = 4000) :
    assembleContext 8192 (t1 :: t2 :: t3 :: rest) []
      = t1 ++ "\n\n".toList ++ t2 ++ "\n\n".toList ++ t3 ++ "\n\n".toList := by
  have hsep : ("\n\n".toList : List Char).length = 2 := rfl
  have htl : promptTmpl.length = 36 := rfl
  rw [assembleContext_cons, if_neg (by
    simp only [List.nil_append, List.length_append, h1, hsep, htl]
    omega)]
  rw [assembleContext_cons, if_neg (by
    simp only [List.nil_append, List.length_append, h1, h2, hsep, htl]
    omega)]
  rw [assembleContext_cons, if_pos (by
    simp only [List.nil_append, List.length_append, h1, h2, h3, hsep, htl]
    omega)]
  simp only [List.nil_append]

/-- The ranking of the three fixture chunks follows their descending
scores. -/
theorem similarChunks_gCtx :
    SimilarChunks gCtx scoreW 0 = [chunkA, chunkB, chunkC] := by
  rw [SimilarChunks_zero]
  norm_num [gCtx, List.insertionSort, List.orderedInsert, simLE, scoreW,
    chunkA, chunkB, chunkC]

/-- C1 counterexample: for the store with `MaxChunkSize = 16384` (budget
8192) whose ranked chunks have text lengths 4000/4000/4000, the assembled
context holds all three chunks — 12006 characters, which together with the
36-character template exceeds the budget — not just the first two (8004
characters). -/
theorem C1_answer_context_counterexample :
    gCtx.MaxChunkSize = 16384 ∧
    (SimilarChunks gCtx scoreW 0).map (fun c => c.text.length)
      = [4000, 4000, 4000] ∧
    (answerContext gCtx scoreW).length = 12006 ∧
    8192 < (answerContext gCtx scoreW).length + promptTmpl.length := by
  have hA : chunkA.text.length = 4000 := List.length_replicate 4000 'a'
  have hB : chunkB.text.length = 4000 := List.length_replicate 4000 'b'
  have hC : chunkC.text.length = 4000 := List.length_replicate 4000 'c'
  have hctx : answerContext gCtx scoreW = chunkA.text ++ "\n\n".toList
      ++ chunkB.text ++ "\n\n".toList ++ chunkC.text ++ "\n\n".toList := by
    unfold answerContext
    rw [similarChunks_gCtx,
      show answerMaxSize gCtx = 8192 from rfl]
    exact assembleContext_three _ _ _ [] hA hB hC
  refine ⟨by norm_num [gCtx], ?_, ?_, ?_⟩
  · rw [similarChunks_gCtx]
    rw [List.map_cons, List.map_cons, List.map_cons, List.map_nil, hA, hB, hC]
  · rw [hctx]
    simp only [List.length_append, hA, hB, hC]
    rw [show ("\n\n".toList : List Char).length = 2 from rfl]
  · rw [hctx]
    simp only [List.length_append, hA, hB, hC]
    rw [show ("\n\n".toList : List Char).length = 2 from rfl,
      show promptTmpl.length = 36 from rfl]
    omega

/-- C1 amended: in `Answer`, a chunk is appended to the context before the
budget check, so the first chunk that pushes the running length (plus the
template) past the half-of-`MaxChunkSize` budget is still included and the
walk stops after it: for every store with `MaxChunkSize = 16384` (budget
8192) whose ranked chunk list starts with three chunks of text length
4000 each, the assembled context contains the text of exactly the first
three chunks (total 12042 with the template, exceeding the budget by one
chunk). -/
theorem C1_answer_context_amended (g : Grokker) (score : Chunk → ℚ)
    (t1 t2 t3 : List Char) (rest : List (List Char))
    (hmax : g.MaxChunkSize = 4096 * 4)
    (hrank : (SimilarChunks g score 0).map (fun c => c.text)
      = t1 :: t2 :: t3 :: rest)
    (h1 : t1.length = 4000) (h2 : t2.length = 4000) (h3 : t3.length = 4000) :
    answerContext g score
      = t1 ++ "\n\n".toList ++ t2 ++ "\n\n".toList ++ t3 ++ "\n\n".toList ∧
    (answerContext g score).length + promptTmpl.length = 12042 := by
  have hms : answerMaxSize g = 8192 := by
    rw [answerMaxSize, hmax]
  have hres : answerContext g score
      = t1 ++ "\n\n".toList ++ t2 ++ "\n\n".toList ++ t3 ++ "\n\n".toList := by
    unfold answerContext
    rw [hrank, hms]
    exact assembleContext_three t1 t2 t3 rest h1 h2 h3
  refine ⟨hres, ?_⟩
  rw [hres]
  simp only [List.length_append, h1, h2, h3]
  rw [show promptTmpl.length = 36 from rfl,
    show ("\n\n".toList : List Char).length = 2 from rfl]

theorem C1_answer_context_amended_witness :
    gCtx.MaxChunkSize = 4096 * 4 ∧
    (SimilarChunks gCtx scoreW 0).map (fun c => c.text)
      = chunkA.text :: chunkB.text :: chunkC.text :: [] ∧
    answerContext gCtx scoreW = chunkA.text ++ "\n\n".toList ++ chunkB.text
      ++ "\n\n".toList ++ chunkC.text ++ "\n\n".toList := by
  have hrank : (SimilarChunks gCtx scoreW 0).map (fun c => c.text)
      = chunkA.text :: chunkB.text :: chunkC.text :: [] := by
    rw [similarChunks_gCtx]
    rfl
  exact ⟨rfl, hrank,
    (C1_answer_context_amended gCtx scoreW chunkA.text chunkB.text chunkC.text
      [] rfl hrank (List.length_replicate 4000 'a')
      (List.length_replicate 4000 'b') (List.length_replicate 4000 'c')).1⟩

theorem decodeDocument_encode (d : Document) :
    decodeDocument (encodeDocument d) = some d := rfl

theorem mapM_decodeDocument_encode (l : List Document) :
    (l.map encodeDocument).mapM decodeDocument = some l := by
  induction l with
  | nil => rfl
  | cons d ds ih =>
    rw [List.map_cons, List.mapM_cons, decodeDocument_encode, ih]
    rfl

theorem mapM_decodeQ_num (l : List ℚ) :
    (l.map JVal.num).mapM decodeQ = some l := by
  induction l with
  | nil => rfl
  | cons x xs ih =>
    rw [List.map_cons, List.mapM_cons, show decodeQ (JVal.num x) = some x from rfl,
      ih]
    rfl

theorem decodeQList_encode (l : List ℚ) :
    decodeQList (JVal.arr (l.map JVal.num)) = some l := mapM_decodeQ_num l

theorem decodeChunk_encode (c : Chunk) : decodeChunk (encodeChunk c) = some c := by
  have h : decodeChunk (encodeChunk c) =
      match decodeQList (JVal.arr (c.embedding.map JVal.num)) with
      | none => none
      | some e => some { docPath := c.docPath, text := (String.mk c.text).toList,
                         embedding := e } := rfl
  rw [h, decodeQList_encode]
  rfl

theorem mapM_decodeChunk_encode (l : List Chunk) :
    (l.map encodeChunk).mapM decodeChunk = some l := by
  induction l with
  | nil => rfl
  | cons c cs ih =>
    rw [List.map_cons, List.mapM_cons, decodeChunk_encode, ih]
    rfl

theorem decodeNat_natCast (n : Nat) : decodeNat (JVal.num (n : ℚ)) = some n := by
  show (if ((n : ℚ).den = 1 ∧ 0 ≤ (n : ℚ).num)
    then some ((n : ℚ)).num.toNat else none) = some n
  rw [if_pos ⟨Rat.den_natCast n, by rw [Rat.num_natCast]; exact Int.ofNat_nonneg n⟩]
  rw [Rat.num_natCast, Int.toNat_natCast]

/-- Unmarshalling `Save`'s blob reduces to decoding the two lists and the
chunk-size number; the scalar string and rational fields decode
definitionally. -/
theorem Load_Save_reduce (g : Grokker) :
    Load (Save g) =
      match (g.Documents.map encodeDocument).mapM decodeDocument with
      | none => none
      | some docs =>
        match (g.Chunks.map encodeChunk).mapM decodeChunk with
        | none => none
        | some chunks =>
          match decodeNat (JVal.num (g.MaxChunkSize : ℚ)) with
          | none => none
          | some mcs =>
            some { Root := g.Root, Documents := docs, Chunks := chunks,
                   MaxChunkSize := mcs, CharsPerToken := g.CharsPerToken } := rfl

/-- C8: `Save` followed by `Load` reproduces the store exactly — identical
document list, identical chunk list (path reference, text, embedding per
chunk), and identical `MaxChunkSize` and `CharsPerToken` (and `Root`): the
persistence round trip is lossless. -/
theorem C8_save_load_roundtrip (g : Grokker) : Load (Save g) = some g := by
  rw [Load_Save_reduce, mapM_decodeDocument_encode, mapM_decodeChunk_encode,
    decodeNat_natCast]

theorem C7_createEmbeddings_batching_witness :
    (List.replicate 250 (['x'] : List Char)).length = 250 ∧
    (embedBatches (List.replicate 250 ['x'])).map List.length = [100, 100, 50] :=
  ⟨List.length_replicate 250 ['x'],
    (C7_createEmbeddings_batching (fun _ => [])
      (List.replicate 250 ['x'])).2.2.2 (List.length_replicate 250 ['x'])⟩

end Grok
